import Mathlib

/-!
Shallow embedding of the audio-editing core of the BRANDS-BY-AI repository:
the pure functions of `src/utils/audioUtils.ts` and the waveform / editor
handlers of `App.tsx`.

Conventions of the embedding:
* a byte is a `Nat` (meaningful values are below 256);
* a signed 16-bit PCM sample is an `Int` (meaningful values in [-32768, 32767]);
* JavaScript numbers whose computations stay exact (times, gains, volumes)
  are rationals `ℚ`; `Math.floor` is `Int.floor`, `Math.round` is
  `⌊x + 1/2⌋`, and storing a number into an `Int16Array` truncates toward
  zero (`ToInt16` of values already inside the 16-bit range);
* the one place where JavaScript special values (`Infinity`, `NaN`) are
  reachable — the waveform normalization — uses an explicit type `JQ` of
  rationals extended with those values.
-/

/-! ## Base64 (`encode` / `decode` of `audioUtils.ts`, over `btoa` / `atob`) -/

/-- Base64 alphabet as character codes: `A`–`Z`, `a`–`z`, `0`–`9`, `+`, `/`. -/
def b64Table (n : Nat) : Nat :=
  if n < 26 then 65 + n
  else if n < 52 then 97 + (n - 26)
  else if n < 62 then 48 + (n - 52)
  else if n = 62 then 43
  else 47

/-- Inverse alphabet lookup, as `atob` reads one character code. -/
def b64Index (c : Nat) : Nat :=
  if 65 ≤ c ∧ c ≤ 90 then c - 65
  else if 97 ≤ c ∧ c ≤ 122 then c - 97 + 26
  else if 48 ≤ c ∧ c ≤ 57 then c - 48 + 52
  else if c = 43 then 62
  else 63

/-- Byte-level `btoa`: three input bytes become four alphabet characters;
a final group of one or two bytes is padded with `=` (character code 61). -/
def btoaBytes : List Nat → List Nat
  | [] => []
  | [b0] => [b64Table (b0 / 4), b64Table (b0 % 4 * 16), 61, 61]
  | [b0, b1] =>
      [b64Table (b0 / 4), b64Table (b0 % 4 * 16 + b1 / 16), b64Table (b1 % 16 * 4), 61]
  | b0 :: b1 :: b2 :: rest =>
      b64Table (b0 / 4) :: b64Table (b0 % 4 * 16 + b1 / 16) ::
      b64Table (b1 % 16 * 4 + b2 / 64) :: b64Table (b2 % 64) :: btoaBytes rest

/-- The `encode` function of `audioUtils.ts`: it builds a binary string whose
`i`-th character code is byte `i` and applies `btoa`; at the byte level this
is exactly `btoaBytes`. -/
def encode (bytes : List Nat) : List Nat := btoaBytes bytes

/-- Removal of the trailing `=` padding (character code 61), which `atob`
ignores before decoding. -/
def stripPad : List Nat → List Nat
  | [] => []
  | c :: rest => if c = 61 ∧ stripPad rest = [] then [] else c :: stripPad rest

/-- Byte reassembly of `atob`: four sextets give three bytes; a trailing
group of two or three sextets gives one or two bytes. -/
def sextetsToBytes : List Nat → List Nat
  | s0 :: s1 :: s2 :: s3 :: rest =>
      (s0 * 4 + s1 / 16) :: (s1 % 16 * 16 + s2 / 4) :: (s2 % 4 * 64 + s3) ::
      sextetsToBytes rest
  | [s0, s1, s2] => [s0 * 4 + s1 / 16, s1 % 16 * 16 + s2 / 4]
  | [s0, s1] => [s0 * 4 + s1 / 16]
  | _ => []

/-- The `decode` function of `audioUtils.ts`: `atob` on the base64 string,
then one byte per character code. -/
def decode (chars : List Nat) : List Nat :=
  sextetsToBytes ((stripPad chars).map b64Index)

theorem b64Index_b64Table : ∀ n < 64, b64Index (b64Table n) = n := by decide

theorem b64Table_ne_pad : ∀ n < 64, b64Table n ≠ 61 := by decide

/-- C2: for every byte buffer `b` (each byte below 256), decoding the base64
encoding of `b` yields `b` again: `decode (encode b) = b`. -/
theorem decode_encode (b : List Nat) (hb : ∀ x ∈ b, x < 256) :
    decode (encode b) = b := by
  induction b using btoaBytes.induct with
  | case1 =>
      simp [decode, encode, btoaBytes, stripPad, sextetsToBytes]
  | case2 b0 =>
      have h0 : b0 < 256 := hb b0 (by simp)
      have e1 := b64Index_b64Table (b0 / 4) (by omega)
      have e2 := b64Index_b64Table (b0 % 4 * 16) (by omega)
      have n1 := b64Table_ne_pad (b0 / 4) (by omega)
      have n2 := b64Table_ne_pad (b0 % 4 * 16) (by omega)
      simp [decode, encode, btoaBytes, stripPad, n1, n2, e1, e2, sextetsToBytes]
      omega
  | case3 b0 b1 =>
      have h0 : b0 < 256 := hb b0 (by simp)
      have h1 : b1 < 256 := hb b1 (by simp)
      have e1 := b64Index_b64Table (b0 / 4) (by omega)
      have e2 := b64Index_b64Table (b0 % 4 * 16 + b1 / 16) (by omega)
      have e3 := b64Index_b64Table (b1 % 16 * 4) (by omega)
      have n1 := b64Table_ne_pad (b0 / 4) (by omega)
      have n2 := b64Table_ne_pad (b0 % 4 * 16 + b1 / 16) (by omega)
      have n3 := b64Table_ne_pad (b1 % 16 * 4) (by omega)
      simp [decode, encode, btoaBytes, stripPad, n1, n2, n3, e1, e2, e3,
        sextetsToBytes]
      omega
  | case4 b0 b1 b2 rest ih =>
      have h0 : b0 < 256 := hb b0 (by simp)
      have h1 : b1 < 256 := hb b1 (by simp)
      have h2 : b2 < 256 := hb b2 (by simp)
      have hrest : ∀ x ∈ rest, x < 256 := fun x hx => hb x (by simp [hx])
      have ih' := ih hrest
      have e1 := b64Index_b64Table (b0 / 4) (by omega)
      have e2 := b64Index_b64Table (b0 % 4 * 16 + b1 / 16) (by omega)
      have e3 := b64Index_b64Table (b1 % 16 * 4 + b2 / 64) (by omega)
      have e4 := b64Index_b64Table (b2 % 64) (by omega)
      have n1 := b64Table_ne_pad (b0 / 4) (by omega)
      have n2 := b64Table_ne_pad (b0 % 4 * 16 + b1 / 16) (by omega)
      have n3 := b64Table_ne_pad (b1 % 16 * 4 + b2 / 64) (by omega)
      have n4 := b64Table_ne_pad (b2 % 64) (by omega)
      simp only [decode, encode, btoaBytes] at ih' ⊢
      simp [stripPad, n1, n2, n3, n4, e1, e2, e3, e4, sextetsToBytes, ih']
      omega

/-- C2 witness: concrete round-trip through the base64 encoder. -/
theorem decode_encode_witness : decode (encode [0, 255, 7, 128]) = [0, 255, 7, 128] :=
  decode_encode [0, 255, 7, 128] (by decide)

/-! ## JavaScript numeric and array primitives -/

/-- Truncation toward zero: the integer conversion JavaScript applies when a
number already inside the 16-bit range is stored into an `Int16Array`. -/
def jsTrunc (q : ℚ) : ℤ := if q < 0 then ⌈q⌉ else ⌊q⌋

/-- The `Math.round` of JavaScript: `⌊x + 1/2⌋`, half-way cases toward `+∞`. -/
def jsRound (q : ℚ) : ℤ := ⌊q + 1 / 2⌋

/-- The `slice(s, e)` method of typed arrays: a negative index counts from
the end, indices are clamped to `[0, length]`, and the result holds the
elements from the clamped start (inclusive) to the clamped end (exclusive). -/
def jsSlice (l : List α) (s e : ℤ) : List α :=
  let len : ℤ := l.length
  let s1 := if s < 0 then max (len + s) 0 else min s len
  let e1 := if e < 0 then max (len + e) 0 else min e len
  (l.take e1.toNat).drop s1.toNat

theorem jsSlice_length_nonneg (l : List α) (s e : ℤ) (hs : 0 ≤ s) (he : 0 ≤ e) :
    (jsSlice l s e).length = min e.toNat l.length - min s.toNat l.length := by
  simp only [jsSlice]
  rw [if_neg (by omega), if_neg (by omega)]
  simp only [List.length_drop, List.length_take]
  omega

/-- The `concatenatePcm` function of `audioUtils.ts`: allocates the total
length and copies each chunk in order, i.e. list concatenation. -/
def concatenatePcm (chunks : List (List Nat)) : List Nat := chunks.flatten

/-! ## C1: cut and trim of `handleAudioEdit` (`App.tsx`) -/

/-- Byte offset used by `handleAudioEdit` for a selection time `t`:
`Math.floor(t * sampleRate * bytesPerSample)` with `sampleRate = 24000` and
`bytesPerSample = 2`, then `startByte -= startByte % 2` (JavaScript `%` is
truncated remainder). -/
def byteOffset (t : ℚ) : ℤ :=
  let b := ⌊t * 24000 * 2⌋
  b - b.tmod 2

/-- The cut branch of `handleAudioEdit`:
`concatenatePcm([pcmData.slice(0, startByte), pcmData.slice(endByte)])`. -/
def cutResult (pcm : List Nat) (s e : ℚ) : List Nat :=
  concatenatePcm [jsSlice pcm 0 (byteOffset s), jsSlice pcm (byteOffset e) pcm.length]

/-- The trim branch of `handleAudioEdit`: `pcmData.slice(startByte, endByte)`. -/
def trimResult (pcm : List Nat) (s e : ℚ) : List Nat :=
  jsSlice pcm (byteOffset s) (byteOffset e)

/-- Duration in seconds of a 16-bit mono PCM byte buffer at 24000 Hz, as
`getPcmChunkDuration` computes it: `(length / 2) / 24000`. -/
def durationOf (pcm : List Nat) : ℚ := ((pcm.length : ℚ) / 2) / 24000

theorem byteOffset_nonneg (t : ℚ) (h : 0 ≤ t) : 0 ≤ byteOffset t := by
  simp only [byteOffset]
  have hb : (0 : ℤ) ≤ ⌊t * 24000 * 2⌋ := by
    rw [Int.floor_nonneg]
    positivity
  rw [Int.tmod_eq_emod hb (by norm_num)]
  omega

theorem byteOffset_mono (s e : ℚ) (hs : 0 ≤ s) (h : s ≤ e) :
    byteOffset s ≤ byteOffset e := by
  simp only [byteOffset]
  have hb1 : (0 : ℤ) ≤ ⌊s * 24000 * 2⌋ := by
    rw [Int.floor_nonneg]; positivity
  have hb2 : ⌊s * 24000 * 2⌋ ≤ ⌊e * 24000 * 2⌋ := by
    apply Int.floor_le_floor
    nlinarith
  have hb3 : (0 : ℤ) ≤ ⌊e * 24000 * 2⌋ := le_trans hb1 hb2
  rw [Int.tmod_eq_emod hb1 (by norm_num), Int.tmod_eq_emod hb3 (by norm_num)]
  omega

/-- C1: for a buffer of duration `D` and a selection `[s, e]` with
`0 ≤ s ≤ e ≤ D`, the byte length of the cut result plus the byte length of
the trim result of the same range equals the byte length of the original
buffer: cut removes exactly the bytes that trim keeps. -/
theorem cut_add_trim_length (pcm : List Nat) (s e : ℚ)
    (hs : 0 ≤ s) (hse : s ≤ e) (_hd : e ≤ durationOf pcm) :
    (cutResult pcm s e).length + (trimResult pcm s e).length = pcm.length := by
  have h0 : 0 ≤ byteOffset s := byteOffset_nonneg s hs
  have h1 : 0 ≤ byteOffset e := byteOffset_nonneg e (le_trans hs hse)
  have h2 : byteOffset s ≤ byteOffset e := byteOffset_mono s e hs hse
  have hlen : (0 : ℤ) ≤ (pcm.length : ℤ) := by positivity
  simp only [cutResult, trimResult, concatenatePcm, List.flatten, List.append_nil,
    List.length_append]
  rw [jsSlice_length_nonneg pcm 0 (byteOffset s) le_rfl h0,
    jsSlice_length_nonneg pcm (byteOffset e) (pcm.length : ℤ) h1 hlen,
    jsSlice_length_nonneg pcm (byteOffset s) (byteOffset e) h0 h1]
  omega

/-- C1 witness: an 8-byte buffer (4 samples) with the selection
`[1/24000, 2/24000]` (one sample): cut keeps 6 bytes, trim keeps 2. -/
theorem cut_add_trim_length_witness :
    (cutResult [1, 2, 3, 4, 5, 6, 7, 8] (1 / 24000) (2 / 24000)).length +
      (trimResult [1, 2, 3, 4, 5, 6, 7, 8] (1 / 24000) (2 / 24000)).length =
      ([1, 2, 3, 4, 5, 6, 7, 8] : List Nat).length :=
  cut_add_trim_length [1, 2, 3, 4, 5, 6, 7, 8] (1 / 24000) (2 / 24000)
    (by norm_num) (by norm_num) (by norm_num [durationOf])

theorem jsTrunc_coe (n : ℤ) : jsTrunc (n : ℚ) = n := by
  simp only [jsTrunc]
  split
  · exact Int.ceil_intCast n
  · exact Int.floor_intCast n

theorem jsRound_coe (n : ℤ) : jsRound (n : ℚ) = n := by
  simp only [jsRound]
  rw [Int.floor_int_add]
  norm_num [Int.floor_eq_iff]

/-! ## C3: `applyFade` -/

/-- Direction of a fade, the `'in' | 'out'` argument of `applyFade`. -/
inductive FadeDir
  | fadeIn
  | fadeOut
deriving DecidableEq

/-- The `applyFade` function of `audioUtils.ts` at the sample level: each
sample `i` of the `N`-sample buffer is replaced by
`Math.round(sample * gain)` with `gain = i / (N > 1 ? N - 1 : 1)` for a
fade-in and `gain = 1 - i / (N > 1 ? N - 1 : 1)` for a fade-out. -/
def applyFade (pcm : List ℤ) (d : FadeDir) : List ℤ :=
  let numSamples := pcm.length
  (List.range numSamples).map fun (i : ℕ) =>
    let den : ℚ := if numSamples > 1 then ((numSamples - 1 : ℕ) : ℚ) else 1
    let gain : ℚ :=
      match d with
      | .fadeIn => (i : ℚ) / den
      | .fadeOut => 1 - (i : ℚ) / den
    jsRound (((pcm.getD i 0 : ℤ) : ℚ) * gain)

/-- C3 counterexample: fading in a one-sample buffer zeroes the sample
instead of leaving it unchanged, because the source replaces only the
denominator (`N > 1 ? N - 1 : 1`), so the fade-in gain at `i = 0` is
`0 / 1 = 0`, not 1 as the claim states. -/
theorem applyFade_single_fadeIn_counterexample :
    applyFade [1000] FadeDir.fadeIn ≠ [1000] := by
  have h : applyFade [1000] FadeDir.fadeIn = [0] := by
    have hr : List.range 1 = [0] := rfl
    simp only [applyFade, List.length_singleton, hr, List.map_cons,
      List.map_nil, List.getD]
    norm_num [List.range_succ]
    rw [show (0 : ℚ) = ((0 : ℤ) : ℚ) by norm_num, jsRound_coe]
  rw [h]
  simp

/-- C3 amended: `applyFade` keeps the length; for `N > 1` it scales sample
`i` by `i / (N - 1)` (fade-in) or `1 - i / (N - 1)` (fade-out), rounding the
result; for `N = 1` the fade-in gain is 0 (the sample is zeroed) and the
fade-out gain is 1 (the sample is unchanged). -/
theorem applyFade_spec (pcm : List ℤ) :
    (∀ d, (applyFade pcm d).length = pcm.length) ∧
    (1 < pcm.length → ∀ i, i < pcm.length →
      (applyFade pcm FadeDir.fadeIn).getD i 0 =
        jsRound (((pcm.getD i 0 : ℤ) : ℚ) * ((i : ℚ) / ((pcm.length : ℚ) - 1))) ∧
      (applyFade pcm FadeDir.fadeOut).getD i 0 =
        jsRound (((pcm.getD i 0 : ℤ) : ℚ) * (1 - (i : ℚ) / ((pcm.length : ℚ) - 1)))) ∧
    (∀ x : ℤ, applyFade [x] FadeDir.fadeIn = [0] ∧ applyFade [x] FadeDir.fadeOut = [x]) := by
  refine ⟨fun d => by simp [applyFade], ?_, ?_⟩
  · intro hN i hi
    have hden : ((pcm.length - 1 : ℕ) : ℚ) = (pcm.length : ℚ) - 1 := by
      have h1 : 1 ≤ pcm.length := by omega
      push_cast [Nat.cast_sub h1]
      ring
    constructor <;>
    · rw [List.getD_eq_getElem _ _ (by simpa [applyFade] using hi)]
      simp only [applyFade, List.getElem_map, List.getElem_range]
      rw [if_pos hN, hden]
  · intro x
    have hr : List.range 1 = [0] := rfl
    constructor
    · simp only [applyFade, List.length_singleton, hr, List.map_cons,
        List.map_nil, List.getD]
      norm_num [List.range_succ]
      rw [show (0 : ℚ) = ((0 : ℤ) : ℚ) by norm_num, jsRound_coe]
    · simp only [applyFade, List.length_singleton, hr, List.map_cons,
        List.map_nil, List.getD]
      norm_num [List.range_succ]
      exact jsRound_coe x

/-- C3 witness: the amended fade formula evaluated on a two-sample buffer
at index 1. -/
theorem applyFade_spec_witness :
    1 < ([10, 20] : List ℤ).length ∧
    (applyFade [10, 20] FadeDir.fadeIn).getD 1 0 =
      jsRound (((([10, 20] : List ℤ).getD 1 0 : ℤ) : ℚ) *
        ((1 : ℚ) / ((([10, 20] : List ℤ).length : ℚ) - 1))) :=
  ⟨by norm_num, ((applyFade_spec [10, 20]).2.1 (by norm_num) 1 (by norm_num)).1⟩

/-! ## C8: `applyGain` -/

/-- The `applyGain` function of `audioUtils.ts`: every sample is multiplied
by `gainFactor` and the product is clamped with
`Math.max(-32768, Math.min(32767, boostedSample))` before being stored into
the 16-bit output array. -/
def applyGain (pcm : List ℤ) (gainFactor : ℚ) : List ℤ :=
  pcm.map fun x => jsTrunc (max (-32768) (min 32767 ((x : ℚ) * gainFactor)))

/-- C8: for every buffer and every gain factor, of any magnitude or sign,
every sample produced by `applyGain` lies within `[-32768, 32767]`. -/
theorem applyGain_clip (pcm : List ℤ) (gainFactor : ℚ) :
    ∀ x ∈ applyGain pcm gainFactor, -32768 ≤ x ∧ x ≤ 32767 := by
  intro x hx
  simp only [applyGain, List.mem_map] at hx
  obtain ⟨y, _, rfl⟩ := hx
  set q : ℚ := max (-32768) (min 32767 ((y : ℚ) * gainFactor)) with hq
  have hlo : (-32768 : ℚ) ≤ q := le_max_left _ _
  have hhi : q ≤ 32767 := max_le (by norm_num) (min_le_left _ _)
  simp only [jsTrunc]
  split
  next h =>
    have h1 : (-32768 : ℤ) ≤ ⌈q⌉ := by
      have h2 := Int.ceil_le_ceil (α := ℚ) hlo
      rw [show ((-32768 : ℚ)) = ((-32768 : ℤ) : ℚ) by norm_num,
        Int.ceil_intCast] at h2
      exact h2
    have h3 : ⌈q⌉ ≤ 0 := Int.ceil_le.mpr (by exact_mod_cast le_of_lt h)
    exact ⟨h1, by omega⟩
  next h =>
    have h0 : (0 : ℚ) ≤ q := not_lt.mp h
    have h1 : (0 : ℤ) ≤ ⌊q⌋ := Int.floor_nonneg.mpr h0
    have h2 : ⌊q⌋ ≤ 32767 := by
      have h3 := Int.floor_le_floor (α := ℚ) hhi
      rw [show ((32767 : ℚ)) = ((32767 : ℤ) : ℚ) by norm_num,
        Int.floor_intCast] at h3
      exact h3
    exact ⟨by omega, h2⟩

/-- C8 witness: the clamped sample produced from `100 * 1000 = 100000` stays
inside the 16-bit range. -/
theorem applyGain_clip_witness :
    -32768 ≤ jsTrunc (max (-32768) (min 32767 (((100 : ℤ) : ℚ) * 1000))) ∧
      jsTrunc (max (-32768) (min 32767 (((100 : ℤ) : ℚ) * 1000))) ≤ 32767 :=
  applyGain_clip [100] 1000 _ (by simp [applyGain])

/-! ## C9: `changeSpeed` -/

/-- Sample lookup with the `|| 0` fallback of `changeSpeed`: an out-of-range
index reads `undefined`, and `undefined || 0` is 0 (a stored 0 also maps to
0 through `0 || 0`). -/
def lookupOr0 (l : List ℤ) (i : ℤ) : ℤ :=
  if 0 ≤ i then l.getD i.toNat 0 else 0

/-- The `changeSpeed` function of `audioUtils.ts`: output length
`Math.floor(originalLength / speedFactor)`; output sample `i` interpolates
linearly between the input samples at `⌊i * speedFactor⌋` and the next index
(clamped to the last sample), and the interpolated value is stored into a
16-bit array (truncation toward zero). A negative `speedFactor` would make
the array constructor throw in JavaScript and is outside this embedding. -/
def changeSpeed (pcm : List ℤ) (speedFactor : ℚ) : List ℤ :=
  let originalLength := pcm.length
  let newLength := (⌊(originalLength : ℚ) / speedFactor⌋).toNat
  (List.range newLength).map fun (i : ℕ) =>
    let originalIndex : ℚ := (i : ℚ) * speedFactor
    let index1 : ℤ := ⌊originalIndex⌋
    let index2 : ℤ := min (index1 + 1) ((originalLength : ℤ) - 1)
    let fraction : ℚ := originalIndex - (index1 : ℚ)
    let sample1 := lookupOr0 pcm index1
    let sample2 := lookupOr0 pcm index2
    jsTrunc ((sample1 : ℚ) + ((sample2 : ℚ) - (sample1 : ℚ)) * fraction)

/-- C9: `changeSpeed` with speed factor 1 returns the input buffer
sample-for-sample: every interpolation index is integral, so the fraction is
0 and each output sample equals the corresponding input sample. -/
theorem changeSpeed_one (pcm : List ℤ) : changeSpeed pcm 1 = pcm := by
  have hlen : (changeSpeed pcm 1).length = pcm.length := by
    simp [changeSpeed]
  apply List.ext_getElem hlen
  intro i h1 h2
  simp only [changeSpeed, List.getElem_map, List.getElem_range, mul_one,
    Int.floor_natCast]
  have hidx : lookupOr0 pcm (i : ℤ) = pcm[i] := by
    simp only [lookupOr0, if_pos (Int.natCast_nonneg i), Int.toNat_natCast]
    exact List.getD_eq_getElem pcm 0 h2
  rw [hidx]
  have hfrac : ((i : ℚ) - ((i : ℤ) : ℚ)) = 0 := by push_cast; ring
  rw [hfrac, mul_zero, add_zero, jsTrunc_coe]

/-! ## C4: `mixAudio` -/

/-- The `clamp16` of the spec: hard clip to the signed 16-bit range, the
value then being stored into a 16-bit array (truncation toward zero). -/
def clamp16 (q : ℚ) : ℤ := jsTrunc (max (-32768) (min 32767 q))

/-- The `mixAudio` function of `audioUtils.ts`: if the background is empty
the voice buffer is returned unchanged; otherwise each voice sample receives
the looping background sample `background[i % backgroundLength]` scaled by
`backgroundVolume`, and the sum is clamped with
`Math.max(-32768, Math.min(32767, mixedSample))`. -/
def mixAudio (voicePcm backgroundPcm : List ℤ) (backgroundVolume : ℚ) : List ℤ :=
  if backgroundPcm.length = 0 then voicePcm
  else
    (List.range voicePcm.length).map fun (i : ℕ) =>
      let voiceSample := voicePcm.getD i 0
      let backgroundSample : ℚ :=
        ((backgroundPcm.getD (i % backgroundPcm.length) 0 : ℤ) : ℚ) * backgroundVolume
      let mixedSample : ℚ := ((voiceSample : ℤ) : ℚ) + backgroundSample
      jsTrunc (max (-32768) (min 32767 mixedSample))

/-- C4: mixing with an empty background returns the voice buffer unchanged;
otherwise the output has the voice buffer's length, output sample `i` is
`clamp16(voice[i] + background[i % backgroundLength] * volume)`, and in
particular when the background is shorter than the voice, the output at
index `backgroundLength` takes background sample 0 (loop wraparound). -/
theorem mixAudio_spec (voice bg : List ℤ) (vol : ℚ) :
    (bg = [] → mixAudio voice bg vol = voice) ∧
    (bg ≠ [] →
      (mixAudio voice bg vol).length = voice.length ∧
      (∀ i, i < voice.length →
        (mixAudio voice bg vol).getD i 0 =
          clamp16 (((voice.getD i 0 : ℤ) : ℚ) +
            ((bg.getD (i % bg.length) 0 : ℤ) : ℚ) * vol)) ∧
      (bg.length < voice.length →
        (mixAudio voice bg vol).getD bg.length 0 =
          clamp16 (((voice.getD bg.length 0 : ℤ) : ℚ) +
            ((bg.getD 0 0 : ℤ) : ℚ) * vol))) := by
  constructor
  · intro h
    simp [mixAudio, h]
  · intro h
    have hL : ¬bg.length = 0 := by
      intro hh
      exact h (List.length_eq_zero.mp hh)
    have hpt : ∀ i, i < voice.length →
        (mixAudio voice bg vol).getD i 0 =
          clamp16 (((voice.getD i 0 : ℤ) : ℚ) +
            ((bg.getD (i % bg.length) 0 : ℤ) : ℚ) * vol) := by
      intro i hi
      have hlen2 : i < (mixAudio voice bg vol).length := by
        simpa [mixAudio, hL] using hi
      rw [List.getD_eq_getElem _ _ hlen2]
      simp only [mixAudio, if_neg hL, List.getElem_map, List.getElem_range, clamp16]
    refine ⟨by simp [mixAudio, hL], hpt, fun hlt => ?_⟩
    have h2 := hpt bg.length hlt
    rwa [Nat.mod_self] at h2

/-- C4 witness: a one-sample background mixed under a two-sample voice wraps
around at output index 1. -/
theorem mixAudio_spec_witness :
    ([50] : List ℤ) ≠ [] ∧
    (mixAudio [100, 200] [50] (1 / 2)).getD 1 0 =
      clamp16 (((([100, 200] : List ℤ).getD 1 0 : ℤ) : ℚ) +
        ((([50] : List ℤ).getD 0 0 : ℤ) : ℚ) * (1 / 2)) :=
  ⟨by simp, ((mixAudio_spec [100, 200] [50] (1 / 2)).2 (by simp)).2.2 (by norm_num)⟩

/-! ## C7: `pcmToWav` and WAV header stripping -/

theorem jsSlice_from_nonneg (l : List α) (s : ℤ) (hs : 0 ≤ s) :
    jsSlice l s l.length = l.drop s.toNat := by
  simp only [jsSlice]
  rw [if_neg (by omega), if_neg (by omega)]
  rw [min_self]
  rw [Int.toNat_natCast, List.take_length]
  rcases le_or_lt s (l.length : ℤ) with h | h
  · rw [min_eq_left h]
  · rw [min_eq_right (le_of_lt h), Int.toNat_natCast]
    rw [List.drop_length, List.drop_eq_nil_of_le (by omega)]

/-- Little-endian 16-bit write of `DataView.setUint16`. -/
def le16 (n : Nat) : List Nat := [n % 256, n / 256 % 256]

/-- Little-endian 32-bit write of `DataView.setUint32` (wraps modulo 2^32). -/
def le32 (n : Nat) : List Nat :=
  [n % 256, n / 256 % 256, n / 65536 % 256, n / 16777216 % 256]

/-- The `pcmToWav` function of `audioUtils.ts` at the byte level: the
44-byte canonical RIFF/WAVE header (`RIFF`, riff size `36 + dataSize`,
`WAVE`, `fmt ` sub-chunk of size 16 with PCM format 1, channel count, sample
rate, byte rate, block align, bits per sample, then `data` and `dataSize`),
followed by the PCM bytes. -/
def pcmToWav (pcmData : List Nat) (sampleRate numChannels bitsPerSample : Nat) :
    List Nat :=
  let dataSize := pcmData.length
  let byteRate := sampleRate * numChannels * (bitsPerSample / 8)
  let blockAlign := numChannels * (bitsPerSample / 8)
  [82, 73, 70, 70] ++ le32 (36 + dataSize) ++ [87, 65, 86, 69] ++
  [102, 109, 116, 32] ++ le32 16 ++ le16 1 ++ le16 numChannels ++
  le32 sampleRate ++ le32 byteRate ++ le16 blockAlign ++ le16 bitsPerSample ++
  [100, 97, 116, 97] ++ le32 dataSize ++ pcmData

/-- WAV header stripping of `combineCustomAudioSamples`:
`wavBytes.slice(44)`. -/
def unwrapWav (wav : List Nat) : List Nat := jsSlice wav 44 wav.length

/-- Little-endian 32-bit read at a byte offset, to state what the `dataSize`
header field holds. -/
def readLE32 (l : List Nat) (off : Nat) : Nat :=
  l.getD off 0 + l.getD (off + 1) 0 * 256 + l.getD (off + 2) 0 * 65536 +
  l.getD (off + 3) 0 * 16777216

/-- C7: wrapping PCM bytes as a WAV at 24000 Hz, 1 channel, 16 bits prepends
exactly 44 header bytes, the little-endian `dataSize` field at offset 40
holds the PCM byte length, and stripping the first 44 bytes recovers the
PCM bytes exactly. -/
theorem pcmToWav_unwrap (p : List Nat) (hp : p.length < 4294967296) :
    unwrapWav (pcmToWav p 24000 1 16) = p ∧
    (pcmToWav p 24000 1 16).length = 44 + p.length ∧
    readLE32 (pcmToWav p 24000 1 16) 40 = p.length := by
  have hform : pcmToWav p 24000 1 16 =
      82 :: 73 :: 70 :: 70 ::
      ((36 + p.length) % 256) :: ((36 + p.length) / 256 % 256) ::
      ((36 + p.length) / 65536 % 256) :: ((36 + p.length) / 16777216 % 256) ::
      87 :: 65 :: 86 :: 69 :: 102 :: 109 :: 116 :: 32 ::
      16 :: 0 :: 0 :: 0 :: 1 :: 0 :: 1 :: 0 ::
      192 :: 93 :: 0 :: 0 :: 128 :: 187 :: 0 :: 0 :: 2 :: 0 :: 16 :: 0 ::
      100 :: 97 :: 116 :: 97 ::
      (p.length % 256) :: (p.length / 256 % 256) ::
      (p.length / 65536 % 256) :: (p.length / 16777216 % 256) :: p := by
    simp [pcmToWav, le32, le16]
  refine ⟨?_, ?_, ?_⟩
  · rw [unwrapWav, jsSlice_from_nonneg _ _ (by omega), hform]
    rfl
  · rw [hform]
    simp
    omega
  · rw [readLE32, hform]
    simp only [List.getD_cons_succ, List.getD_cons_zero]
    omega

/-- C7 witness: a three-byte PCM buffer wrapped and unwrapped. -/
theorem pcmToWav_unwrap_witness :
    ([1, 2, 3] : List Nat).length < 4294967296 ∧
    unwrapWav (pcmToWav [1, 2, 3] 24000 1 16) = [1, 2, 3] :=
  ⟨by norm_num, (pcmToWav_unwrap [1, 2, 3] (by norm_num)).1⟩

/-! ## C5: the waveform visualization effect (`App.tsx`)

JavaScript special values are reachable here: `Math.pow(0, -1)` is
`Infinity`, and `0 * Infinity` is `NaN`. The type `JQ` extends `ℚ` with
those values far enough to evaluate the normalization pipeline. The value
`-0` (reachable only as `Math.pow(-Infinity, -1)`) is represented as
`fin 0`; like `-0` it is falsy, which is the only property used of it. -/

/-- JavaScript numbers for the waveform pipeline: a finite rational,
`Infinity`, `-Infinity` or `NaN`. -/
inductive JQ
  | fin (q : ℚ)
  | pinf
  | ninf
  | nan
deriving DecidableEq

/-- Division of a finite number by a natural count as JavaScript floats:
`0 / 0` is `NaN`, a nonzero value divided by 0 gives a signed infinity. -/
def jqDivNat (q : ℚ) (n : Nat) : JQ :=
  if n = 0 then (if q = 0 then .nan else if q > 0 then .pinf else .ninf)
  else .fin (q / n)

/-- Binary `Math.max`: `NaN` propagates, infinities compare as expected. -/
def jqMax2 : JQ → JQ → JQ
  | .nan, _ => .nan
  | _, .nan => .nan
  | .pinf, _ => .pinf
  | _, .pinf => .pinf
  | .ninf, b => b
  | a, .ninf => a
  | .fin a, .fin b => .fin (max a b)

/-- The spread call `Math.max(...list)`: fold of `jqMax2` starting from
`-Infinity`, the value of `Math.max()` with no arguments. -/
def jqMaxList (l : List JQ) : JQ := l.foldl jqMax2 .ninf

/-- The call `Math.pow(x, -1)`: `1 / x`, with `Math.pow(0, -1) = Infinity`,
`Math.pow(±Infinity, -1) = ±0` and `NaN` propagating. -/
def jqPowNegOne : JQ → JQ
  | .fin q => if q = 0 then .pinf else .fin (1 / q)
  | .pinf => .fin 0
  | .ninf => .fin 0
  | .nan => .nan

/-- The idiom `x || 1`: the falsy values (`0`, `-0`, `NaN`) are replaced by
1, everything else — including `Infinity` — is kept. -/
def jqOr1 : JQ → JQ
  | .fin q => if q = 0 then .fin 1 else .fin q
  | .nan => .fin 1
  | v => v

/-- Multiplication of JavaScript numbers: `NaN` propagates and
`0 * ±Infinity = NaN`. -/
def jqMul : JQ → JQ → JQ
  | .nan, _ => .nan
  | _, .nan => .nan
  | .fin a, .fin b => .fin (a * b)
  | .fin a, .pinf => if a = 0 then .nan else if a > 0 then .pinf else .ninf
  | .fin a, .ninf => if a = 0 then .nan else if a > 0 then .ninf else .pinf
  | .pinf, .fin b => if b = 0 then .nan else if b > 0 then .pinf else .ninf
  | .ninf, .fin b => if b = 0 then .nan else if b > 0 then .ninf else .pinf
  | .pinf, .pinf => .pinf
  | .pinf, .ninf => .ninf
  | .ninf, .pinf => .ninf
  | .ninf, .ninf => .pinf

/-- Subtraction of 1, the final `- 1` of the remap. -/
def jqSub1 : JQ → JQ
  | .fin q => .fin (q - 1)
  | .nan => .nan
  | v => v

/-- The waveform-visualization effect of `App.tsx`: each 16-bit sample is
scaled to `[-1, 1]` by `/ 32768`; the samples are split into `bucketCount`
blocks of `Math.floor(totalSamples / bucketCount)` samples each; each block
contributes the mean of its absolute values; the block means are normalized
with `multiplier = Math.pow(Math.max(...blockMeans), -1) || 1` and remapped
by `n * multiplier * 2 - 1`. -/
def waveformAnalyze (pcm : List ℤ) (bucketCount : Nat) : List JQ :=
  let channelData : List ℚ := pcm.map fun x => (x : ℚ) / 32768
  let blockSize := channelData.length / bucketCount
  let filteredData : List JQ := (List.range bucketCount).map fun (i : ℕ) =>
    jqDivNat (((List.range blockSize).map fun (j : ℕ) =>
      |channelData.getD (blockSize * i + j) 0|).sum) blockSize
  let multiplier := jqOr1 (jqPowNegOne (jqMaxList filteredData))
  filteredData.map fun n => jqSub1 (jqMul (jqMul n multiplier) (.fin 2))

/-- C5 at the failing input: for an all-zero (silent) buffer the block means
are all 0, `Math.pow(0, -1)` gives `Infinity` — which is truthy, so the
`|| 1` fallback never applies — and every output value is
`0 * Infinity = NaN`, not the `-1` the claimed multiplier of 1 would give. -/
theorem waveformAnalyze_silent_nan :
    waveformAnalyze [0, 0] 2 = [JQ.nan, JQ.nan] := by
  simp [waveformAnalyze, jqDivNat, jqMaxList, jqMax2, jqPowNegOne, jqOr1,
    jqMul, jqSub1, List.range_succ]

/-! ## C6 and C10: the audio-editor page of `App.tsx`

The editor component state: `audioData` is the base64 string (a list of
character codes) or null, `audioHistory` the undo stack of previous base64
strings, `selection` the selected time range in seconds or null. -/

/-- Reading two little-endian bytes as one signed 16-bit sample, as an
`Int16Array` view over a `Uint8Array` buffer does. -/
def toInt16 (n : Nat) : ℤ :=
  if n % 65536 < 32768 then (n % 65536 : ℤ) else (n % 65536 : ℤ) - 65536

/-- An `Int16Array` view over a byte buffer: consecutive little-endian byte
pairs; a trailing odd byte is not part of the view. -/
def bytesToInt16 : List Nat → List ℤ
  | lo :: hi :: rest => toInt16 (lo + hi * 256) :: bytesToInt16 rest
  | _ => []

/-- The two little-endian bytes backing one stored 16-bit sample. -/
def int16ToBytes (x : ℤ) : List Nat :=
  [(x % 65536).toNat % 256, (x % 65536).toNat / 256]

/-- The `Uint8Array` view over an `Int16Array` buffer. -/
def samplesToBytes (l : List ℤ) : List Nat := (l.map int16ToBytes).flatten

/-- The `applyFade` function as called on raw bytes in `handleAudioEdit`:
view the bytes as 16-bit samples, fade, and return the backing bytes. -/
def applyFadeBytes (pcmData : List Nat) (d : FadeDir) : List Nat :=
  samplesToBytes (applyFade (bytesToInt16 pcmData) d)

/-- The `generateSilence` function of `audioUtils.ts`:
`Math.floor(duration * sampleRate) * (bitsPerSample / 8)` zero bytes (a
negative duration would make the array constructor throw and is outside
this embedding). -/
def generateSilence (duration : ℚ) (sampleRate bitsPerSample : Nat) : List Nat :=
  let bytesPerSample := bitsPerSample / 8
  let numSamples := (⌊duration * sampleRate⌋).toNat
  List.replicate (numSamples * bytesPerSample) 0

/-- State of the audio-editor component. -/
structure EditorState where
  audioData : Option (List Nat)
  audioHistory : List (List Nat)
  selection : Option (ℚ × ℚ)

/-- The `type` argument of `handleAudioEdit`. -/
inductive EditType
  | cut
  | trim
  | silence
  | fadeIn
  | fadeOut

/-- The `switch (type)` body of `handleAudioEdit`: the new raw PCM bytes
built from the decoded buffer and the selection byte offsets. -/
def editNewData (pcmData : List Nat) (s e : ℚ) : EditType → List Nat
  | .cut =>
      concatenatePcm [jsSlice pcmData 0 (byteOffset s),
        jsSlice pcmData (byteOffset e) pcmData.length]
  | .trim => jsSlice pcmData (byteOffset s) (byteOffset e)
  | .silence =>
      concatenatePcm [jsSlice pcmData 0 (byteOffset s),
        generateSilence (e - s) 24000 16,
        jsSlice pcmData (byteOffset e) pcmData.length]
  | .fadeIn =>
      concatenatePcm [jsSlice pcmData 0 (byteOffset s),
        applyFadeBytes (jsSlice pcmData (byteOffset s) (byteOffset e)) FadeDir.fadeIn,
        jsSlice pcmData (byteOffset e) pcmData.length]
  | .fadeOut =>
      concatenatePcm [jsSlice pcmData 0 (byteOffset s),
        applyFadeBytes (jsSlice pcmData (byteOffset s) (byteOffset e)) FadeDir.fadeOut,
        jsSlice pcmData (byteOffset e) pcmData.length]

/-- The `handleAudioEdit` handler: the guard
`if (!selection || !audioData) return;` fires when the selection is null or
the audio data is null or the empty string (both falsy); otherwise the
current base64 string is pushed on the history, the decoded buffer is
edited, and the result is re-encoded while the selection is cleared. -/
def handleAudioEdit (ty : EditType) (st : EditorState) : EditorState :=
  match st.selection, st.audioData with
  | some sel, some data =>
      if data = [] then st
      else
        { audioData := some (encode (editNewData (decode data) sel.1 sel.2 ty)),
          audioHistory := st.audioHistory ++ [data],
          selection := none }
  | _, _ => st

/-- The `handleUndo` handler: if the history is non-empty, restore its last
entry and pop it; otherwise do nothing. -/
def handleUndo (st : EditorState) : EditorState :=
  match st.audioHistory.getLast? with
  | some lastState =>
      { audioData := some lastState,
        audioHistory := st.audioHistory.dropLast,
        selection := st.selection }
  | none => st

/-- The `disabled={!selection}` condition on the Cut / Trim / Silence /
Fade-In / Fade-Out buttons of the editor page. -/
def editButtonsDisabled (st : EditorState) : Bool := st.selection.isNone

/-- C6 at the failing input: with a zero-length selection `[1, 1]` over a
four-byte buffer, the destructive edit buttons are NOT disabled (the
`disabled={!selection}` test only checks for null), and a trim edit IS
applied: the buffer is replaced by the empty buffer and the history grows,
contrary to the claim that a zero-length selection is treated as "no
selection". -/
theorem zeroLength_selection_edit_applies :
    editButtonsDisabled ⟨some (encode [1, 2, 3, 4]), [], some (1, 1)⟩ = false ∧
    (handleAudioEdit EditType.trim
        ⟨some (encode [1, 2, 3, 4]), [], some (1, 1)⟩).audioData =
      some (encode []) ∧
    (handleAudioEdit EditType.trim
        ⟨some (encode [1, 2, 3, 4]), [], some (1, 1)⟩).audioHistory =
      [encode [1, 2, 3, 4]] := by
  have hbo : byteOffset 1 = 48000 := by
    simp only [byteOffset]
    rw [show ((1 : ℚ) * 24000 * 2) = ((48000 : ℤ) : ℚ) by norm_num,
      Int.floor_intCast]
    decide
  have hdec : decode (encode [1, 2, 3, 4]) = [1, 2, 3, 4] := by decide
  have hne : encode [1, 2, 3, 4] ≠ [] := by decide
  have hslice : jsSlice [1, 2, 3, 4] 48000 48000 = ([] : List Nat) := by decide
  refine ⟨rfl, ?_, ?_⟩
  · simp only [handleAudioEdit]
    simp [hne, editNewData, hdec, hbo, hslice, encode, btoaBytes]
  · simp only [handleAudioEdit]
    simp [hne]

/-- C10: with a non-null selection and a non-empty audio buffer, any
destructive edit followed immediately by undo restores the exact pre-edit
encoded buffer and the exact pre-edit history stack; and undo on an empty
history stack changes nothing. -/
theorem edit_undo_roundtrip (st : EditorState) (ty : EditType) (sel : ℚ × ℚ)
    (d : List Nat) (hsel : st.selection = some sel)
    (hdata : st.audioData = some d) (hne : d ≠ []) :
    ((handleUndo (handleAudioEdit ty st)).audioData = st.audioData ∧
      (handleUndo (handleAudioEdit ty st)).audioHistory = st.audioHistory) ∧
    (∀ st2 : EditorState, st2.audioHistory = [] → handleUndo st2 = st2) := by
  constructor
  · have hedit : handleAudioEdit ty st =
        { audioData := some (encode (editNewData (decode d) sel.1 sel.2 ty)),
          audioHistory := st.audioHistory ++ [d],
          selection := none } := by
      rw [handleAudioEdit, hsel, hdata]
      simp [hne]
    rw [hedit]
    simp [handleUndo, List.getLast?_concat, List.dropLast_concat, hdata]
  · intro st2 h2
    simp [handleUndo, h2]

/-- C10 witness: cut on a concrete one-selection state, then undo. -/
theorem edit_undo_roundtrip_witness :
    (handleUndo (handleAudioEdit EditType.cut
        ⟨some (encode [1, 2, 3, 4]), [], some (0, 0)⟩)).audioData =
      some (encode [1, 2, 3, 4]) :=
  ((edit_undo_roundtrip ⟨some (encode [1, 2, 3, 4]), [], some (0, 0)⟩
      EditType.cut (0, 0) (encode [1, 2, 3, 4]) rfl rfl (by decide)).1).1
